import Mathlib

/-!
Verification of the long-text segmentation / translation / reassembly engine of
`telegram_translator_bot.py`.

Texts are modelled as `List Char` (one element per Unicode code point, which is
what Python's `len` and indexing count).  Python's `str.strip` is modelled over
the ASCII whitespace characters; the regular expressions of the source are
compiled by hand into scanners over `List Char`.  Scanners that advance by more
than one character per step use an explicit fuel argument (always instantiated
with the length of the input) so that every definition is a structural
recursion that the kernel can evaluate.

The external `GoogleTranslator.translate` capability is modelled as an injected
function `translate : List Char → Option (List Char)`; `none` models a raised
exception or timeout, `some r` a returned string `r` (the source treats a
`None`/empty result like a failure, which the embedding reproduces via its
explicit emptiness test).
-/

/-- Whitespace test modelling Python's `\s` / `str.strip` on the ASCII range
(space, tab, newline, carriage return, vertical tab, form feed). -/
def isPySpace (c : Char) : Bool :=
  c == ' ' || c == '\t' || c == '\n' || c == '\r' || c == '\x0b' || c == '\x0c'

/-- Python `str.strip()`: drop leading and trailing whitespace. -/
def pyStrip (l : List Char) : List Char :=
  ((l.dropWhile isPySpace).reverse.dropWhile isPySpace).reverse

/-- Word character test modelling the regex `\w` for the alphabets the source
deals with: ASCII letters and digits, underscore, and the Cyrillic block. -/
def isWordChar (c : Char) : Bool :=
  c.isAlpha || c.isDigit || c == '_' || (decide (0x400 ≤ c.toNat) && decide (c.toNat ≤ 0x4FF))

/-- Character class `[A-ZА-ЯІЇЄҐ]` from the sentence-boundary regex of
`enhanced_sentence_split` (line 87 of the source). -/
def upperOk (c : Char) : Bool :=
  (decide ('A' ≤ c) && decide (c ≤ 'Z')) || (decide ('А' ≤ c) && decide (c ≤ 'Я')) ||
    c == 'І' || c == 'Ї' || c == 'Є' || c == 'Ґ'

/-- Lookbehind part of the sentence-boundary regex
`(?<!\w\.\w.)(?<![A-Z][a-z]\.)(?<=[.!?])` evaluated at a candidate split
position; `prev4` holds the (up to four) characters before the position, most
recent first. -/
def sentBoundaryOk (prev4 : List Char) : Bool :=
  (match prev4 with
   | p1 :: _ => p1 == '.' || p1 == '!' || p1 == '?'
   | [] => false)
  &&
  (match prev4 with
   | p1 :: p2 :: p3 :: p4 :: _ =>
     !(isWordChar p4 && p3 == '.' && isWordChar p2 && !(p1 == '\n'))
   | _ => true)
  &&
  (match prev4 with
   | p1 :: p2 :: p3 :: _ =>
     !(decide ('A' ≤ p3) && decide (p3 ≤ 'Z') && decide ('a' ≤ p2) && decide (p2 ≤ 'z') &&
        p1 == '.')
   | _ => true)

/-- Scanner for `re.split(r'(?<!\w\.\w.)(?<![A-Z][a-z]\.)(?<=[.!?])\s+(?=[A-ZА-ЯІЇЄҐ])', s)`:
a maximal whitespace run is a separator exactly when the lookbehinds accept the
characters before it and the character following the run is in the uppercase
class.  `accRev` is the current piece reversed; the fuel is the length of the
unscanned input. -/
def sentSplitF : Nat → List Char → List Char → List Char → List (List Char)
  | 0, _, accRev, rest => [accRev.reverse ++ rest]
  | _ + 1, _, accRev, [] => [accRev.reverse]
  | n + 1, prev4, accRev, c :: cs =>
    if isPySpace c && sentBoundaryOk prev4 then
      match cs.dropWhile isPySpace with
      | a :: after =>
        if upperOk a then
          sentSplitF n (List.take 4 ((c :: cs.takeWhile isPySpace).reverse ++ prev4)) []
              (a :: after) |> (accRev.reverse :: ·)
        else
          sentSplitF n (List.take 4 (c :: prev4)) (c :: accRev) cs
      | [] => sentSplitF n (List.take 4 (c :: prev4)) (c :: accRev) cs
    else
      sentSplitF n (List.take 4 (c :: prev4)) (c :: accRev) cs

/-- Splitting a text at the sentence-boundary regex (`re.split` of line 90). -/
def sentSplit (l : List Char) : List (List Char) :=
  sentSplitF l.length [] [] l

/-- Model of `enhanced_sentence_split` (source lines 82–99): strip the text,
split it at the sentence-boundary regex, keep the stripped pieces of length
greater than one, and fall back to the whole original text when nothing
remains. -/
def enhanced_sentence_split (text : List Char) : List (List Char) :=
  let stripped := pyStrip text
  let sentences := sentSplit stripped
  let cleaned := (sentences.map pyStrip).filter (fun s => !s.isEmpty && decide (1 < s.length))
  if !cleaned.isEmpty then cleaned else [text]

/-- Model of the overlap-building `while` loop of `create_context_aware_chunks`
(source lines 139–144): walk backwards over the already-consumed sentences
(`rev`, most recent first) and prepend each one while the separator-joined
length stays within `overlap`. -/
def goOverlap (overlap : Nat) : List (List Char) → List Char → List Char
  | [], temp_overlap => temp_overlap
  | sentence :: rest, temp_overlap =>
    if (temp_overlap ++ ' ' :: sentence).length ≤ overlap then
      goOverlap overlap rest (sentence ++ ' ' :: temp_overlap)
    else
      temp_overlap

/-- Python `str.endswith(' ')`. -/
def endsWithSpace (l : List Char) : Bool :=
  match l.getLast? with
  | some c => c == ' '
  | none => false

/-- Model of the main `while i < len(sentences)` loop of
`create_context_aware_chunks` (source lines 118–163), including the final-chunk
append: `rev` is the list of already-consumed sentences (most recent first),
`chunks` the finished chunks, `current_chunk` the chunk under construction. -/
def chunkLoop (chunk_size overlap : Nat) :
    List (List Char) → List (List Char) → List Char → List (List Char) → List (List Char)
  | _, chunks, current_chunk, [] =>
    if !(pyStrip current_chunk).isEmpty then chunks ++ [pyStrip current_chunk] else chunks
  | rev, chunks, current_chunk, sentence :: rest =>
    let potential_chunk :=
      if !current_chunk.isEmpty && !endsWithSpace current_chunk then
        current_chunk ++ ' ' :: sentence
      else
        current_chunk ++ sentence
    if chunk_size < potential_chunk.length && !current_chunk.isEmpty then
      let temp_overlap := goOverlap overlap rev []
      let next_chunk :=
        if !(pyStrip temp_overlap).isEmpty then pyStrip temp_overlap ++ ' ' :: sentence
        else sentence
      chunkLoop chunk_size overlap (sentence :: rev) (chunks ++ [pyStrip current_chunk])
        next_chunk rest
    else
      let next_chunk :=
        if !current_chunk.isEmpty then current_chunk ++ ' ' :: sentence else sentence
      chunkLoop chunk_size overlap (sentence :: rev) chunks next_chunk rest

/-- Model of `create_context_aware_chunks` (source lines 101–166). -/
def create_context_aware_chunks (text : List Char) (chunk_size overlap : Nat) :
    List (List Char) :=
  if text.length ≤ chunk_size then [text]
  else
    let sentences := enhanced_sentence_split text
    if sentences.isEmpty then [text]
    else
      let chunks := chunkLoop chunk_size overlap [] [] [] sentences
      if !chunks.isEmpty then chunks else [text]

/-- Scanner for `re.sub(r'\s+', ' ', s)`: every maximal whitespace run becomes
a single space (fuel-driven; fuel is the input length). -/
def collapseWsF : Nat → List Char → List Char
  | 0, _ => []
  | _ + 1, [] => []
  | n + 1, c :: cs =>
    if isPySpace c then ' ' :: collapseWsF n (cs.dropWhile isPySpace)
    else c :: collapseWsF n cs

/-- Replacement of every whitespace run by one space (source lines 194 and 227). -/
def collapseWs (l : List Char) : List Char :=
  collapseWsF l.length l

/-- Punctuation class `[.!?,:;]` of the artifact-cleanup regex (line 195). -/
def isCleanupPunct (c : Char) : Bool :=
  c == '.' || c == '!' || c == '?' || c == ',' || c == ':' || c == ';'

/-- Scanner for `re.sub(r'\s+([.!?,:;])', r'\1', s)`: a whitespace run directly
followed by one of the punctuation characters is deleted. -/
def punctFixF : Nat → List Char → List Char
  | 0, _ => []
  | _ + 1, [] => []
  | n + 1, c :: cs =>
    if isPySpace c then
      match cs.dropWhile isPySpace with
      | p :: rest =>
        if isCleanupPunct p then p :: punctFixF n rest
        else (c :: cs.takeWhile isPySpace) ++ punctFixF n (cs.dropWhile isPySpace)
      | [] => c :: cs
    else c :: punctFixF n cs

/-- Removal of whitespace before punctuation (source line 195). -/
def punctFix (l : List Char) : List Char :=
  punctFixF l.length l

/-- Model of the per-chunk body of the dispatch loop of
`enhanced_translate_with_context` (source lines 183–205): call the backend on
the stripped chunk; on a non-empty result strip it and clean up whitespace
artifacts, otherwise (empty result, `None`, or a raised exception, modelled by
`none`) fall back to the original chunk text. -/
def translateChunk (translate : List Char → Option (List Char)) (chunk : List Char) :
    List Char :=
  match translate (pyStrip chunk) with
  | some result =>
    if !(pyStrip result).isEmpty then punctFix (collapseWs (pyStrip result))
    else chunk
  | none => chunk

/-- Model of the dispatch loop of `enhanced_translate_with_context` (source
lines 179–205): chunks that strip to the empty string are skipped (`continue`),
every other chunk produces exactly one outcome, in order. -/
def dispatchChunks (translate : List Char → Option (List Char)) :
    List (List Char) → List (List Char)
  | [] => []
  | chunk :: rest =>
    if (pyStrip chunk).isEmpty then dispatchChunks translate rest
    else translateChunk translate chunk :: dispatchChunks translate rest

/-- Model of the joining fold of source lines 212–224; the source tests whether
the accumulated text ends in `.`, `!`, `?` or a newline but performs the same
concatenation in both branches, which the embedding reproduces. -/
def joinGo : List Char → List (List Char) → List Char
  | final_translation, [] => final_translation
  | final_translation, chunk :: rest =>
    if endsWithSpace final_translation ||
        (match final_translation.getLast? with
         | some c => c == '.' || c == '!' || c == '?' || c == '\n'
         | none => false) then
      joinGo (final_translation ++ ' ' :: chunk) rest
    else
      joinGo (final_translation ++ ' ' :: chunk) rest

/-- Model of the "intelligent chunk joining" of `enhanced_translate_with_context`
(source lines 207–224). -/
def joinChunks : List (List Char) → List Char
  | [c] => c
  | [] => []
  | c :: rest => joinGo c rest

/-- Model of `enhanced_translate_with_context` (source lines 168–233) with the
backend injected: chunk with the default sizes 1500/200, dispatch each chunk,
join the outcomes, normalize whitespace, and fall back to the original text
when everything collapsed to nothing. -/
def enhanced_translate_with_context (translate : List Char → Option (List Char))
    (text : List Char) : List Char :=
  let chunks := create_context_aware_chunks text 1500 200
  let translated_chunks := dispatchChunks translate chunks
  let final_translation := joinChunks translated_chunks
  let final := pyStrip (collapseWs final_translation)
  if !final.isEmpty then final else text

/-- Joining a list of texts with single spaces (used to state what the
chunker's output amounts to). -/
def joinSp : List (List Char) → List Char
  | [] => []
  | [c] => c
  | c :: c2 :: rest => c ++ ' ' :: joinSp (c2 :: rest)

/-- Interleaving separator strings around and between chunks:
`weave [s0, s1, ...] [c0, c1, ...] = s0 ++ c0 ++ s1 ++ c1 ++ ...`; with fewer
separators than slots the remaining chunks are concatenated directly.  Any way
of "reinserting the removed separators" around the chunks is a `weave`. -/
def weave : List (List Char) → List (List Char) → List Char
  | seps, [] => seps.flatten
  | [], chunk :: rest => chunk ++ weave [] rest
  | sep :: seps, chunk :: rest => sep ++ chunk ++ weave seps rest

/-- Number of paragraph breaks — maximal runs of two or more consecutive
newlines — in a text (the spec's notion of a paragraph separator). -/
def countParaBreaksF : Nat → List Char → Nat
  | 0, _ => 0
  | _ + 1, [] => 0
  | n + 1, c :: cs =>
    if c == '\n' && (match cs.head? with | some d => d == '\n' | none => false) then
      1 + countParaBreaksF n (cs.dropWhile (· == '\n'))
    else
      countParaBreaksF n cs

/-- Number of paragraph breaks in a text. -/
def countParaBreaks (l : List Char) : Nat :=
  countParaBreaksF l.length l

/-- Separator normalization: every whitespace run becomes a single space and
edge whitespace disappears — the "modulo separator normalization" of the spec. -/
def normalizeSep (l : List Char) : List Char :=
  pyStrip (collapseWs l)

/-- Modelled from the spec (§4.2): the character-level context fallback the
claim describes — "the last `overlapLimit` characters, then trim back to the
nearest preceding word boundary so no word is truncated".  No code in the
repository implements this; the definition exists only to state what the claim
requires. -/
def specFallbackContext (prev : List Char) (overlapLimit : Nat) : List Char :=
  if prev.length ≤ overlapLimit then prev
  else
    let tail := prev.drop (prev.length - overlapLimit)
    if isPySpace (prev.getD (prev.length - overlapLimit - 1) ' ') then tail
    else (tail.dropWhile (fun c => !isPySpace c)).dropWhile isPySpace

/-- Test that a text neither starts nor ends with whitespace. -/
def noEdgeWsB (l : List Char) : Bool :=
  (match l.head? with | some c => !isPySpace c | none => true) &&
  (match l.getLast? with | some c => !isPySpace c | none => true)

/-- Chain condition of `wellSpaced`: every whitespace character is a plain
space that is followed by a character that is neither whitespace nor cleanup
punctuation (and the last character is not whitespace). -/
def tidyB : List Char → Bool
  | [] => true
  | [c] => !isPySpace c
  | c :: d :: rest =>
    (!isPySpace c || (c == ' ' && !isPySpace d && !isCleanupPunct d)) && tidyB (d :: rest)

/-- Texts that are fixed points of the dispatcher's artifact cleanup: non-empty,
no edge whitespace, all internal whitespace consists of single spaces not
followed by punctuation. -/
def wellSpaced : List Char → Bool
  | [] => false
  | c :: cs => !isPySpace c && tidyB (c :: cs)

/-- Concrete three-sentence text used to exhibit the overlap duplication. -/
def t1 : List Char := "Aa bb. Cc dd. Ee ff.".data

/-- Concrete two-sentence text whose sentences each exceed a small limit. -/
def t3 : List Char := "Aaaa bbbb cccc. Dddd eeee ffff.".data

/-- One ten-character sentence used to build the long inputs. -/
def sent10 : List Char := "Aaaa bbbb.".data

/-- Long input (1539 characters, 140 sentences) that the pipeline's default
chunk size 1500 splits into two chunks. -/
def t4 : List Char := joinSp (List.replicate 140 sent10)

/-- Long input (1540 characters) with a paragraph break exactly where the
default-size chunker places the boundary between its two chunks. -/
def t5 : List Char :=
  joinSp (List.replicate 136 sent10) ++ '\n' :: '\n' :: joinSp (List.replicate 4 sent10)

/-! ### Basic facts about stripping and edge whitespace -/

theorem dropWhile_eq_self_of_head (p : Char → Bool) (l : List Char)
    (h : ∀ c, l.head? = some c → p c = false) : l.dropWhile p = l := by
  cases l with
  | nil => rfl
  | cons c cs => rw [List.dropWhile_cons]; simp [h c rfl]

theorem pyStrip_eq_self_of_noEdge {l : List Char} (h : noEdgeWsB l = true) : pyStrip l = l := by
  unfold noEdgeWsB at h
  rw [Bool.and_eq_true] at h
  obtain ⟨hh, hl⟩ := h
  unfold pyStrip
  have e1 : l.dropWhile isPySpace = l := by
    apply dropWhile_eq_self_of_head
    intro c hc
    rw [hc] at hh
    simpa using hh
  rw [e1]
  have e2 : l.reverse.dropWhile isPySpace = l.reverse := by
    apply dropWhile_eq_self_of_head
    intro c hc
    rw [List.head?_reverse] at hc
    rw [hc] at hl
    simpa using hl
  rw [e2, List.reverse_reverse]

theorem pyStrip_length_le (l : List Char) : (pyStrip l).length ≤ l.length := by
  unfold pyStrip
  rw [List.length_reverse]
  calc ((l.dropWhile isPySpace).reverse.dropWhile isPySpace).length
      ≤ (l.dropWhile isPySpace).reverse.length := (List.dropWhile_sublist _).length_le
    _ = (l.dropWhile isPySpace).length := List.length_reverse _
    _ ≤ l.length := (List.dropWhile_sublist _).length_le

theorem mem_pyStrip {c : Char} {l : List Char} (h : c ∈ pyStrip l) : c ∈ l := by
  unfold pyStrip at h
  rw [List.mem_reverse] at h
  have h2 := (List.dropWhile_sublist _).mem h
  rw [List.mem_reverse] at h2
  exact (List.dropWhile_sublist _).mem h2

theorem all_ws_of_pyStrip_eq_nil {l : List Char} (h : pyStrip l = []) :
    ∀ c ∈ l, isPySpace c = true := by
  unfold pyStrip at h
  rw [List.reverse_eq_nil_iff, List.dropWhile_eq_nil_iff] at h
  intro c hc
  rw [← List.takeWhile_append_dropWhile (p := isPySpace) (l := l)] at hc
  rcases List.mem_append.1 hc with hm | hm
  · exact List.mem_takeWhile_imp hm
  · exact h c (List.mem_reverse.2 hm)

theorem head?_append_left {a b : List Char} (h : a ≠ []) : (a ++ b).head? = a.head? := by
  cases a with
  | nil => exact absurd rfl h
  | cons c cs => rfl

theorem getLast?_append_right {a b : List Char} (h : b ≠ []) :
    (a ++ b).getLast? = b.getLast? := by
  rw [← List.head?_reverse, ← List.head?_reverse, List.reverse_append]
  exact head?_append_left (by simpa using h)

theorem endsWithSpace_eq_false_of_noEdge {l : List Char} (h : noEdgeWsB l = true) :
    endsWithSpace l = false := by
  unfold endsWithSpace
  cases hl : l.getLast? with
  | none => rfl
  | some c =>
    unfold noEdgeWsB at h
    rw [Bool.and_eq_true] at h
    have h2 := h.2
    rw [hl] at h2
    simp only [Bool.not_eq_true'] at h2
    have hc : c ≠ ' ' := by
      intro e
      rw [e] at h2
      simp [isPySpace] at h2
    simp [hc]

theorem noEdgeWsB_append_sep {a b : List Char} (ha : noEdgeWsB a = true)
    (hb : noEdgeWsB b = true) (hna : a ≠ []) (hnb : b ≠ []) :
    noEdgeWsB (a ++ ' ' :: b) = true := by
  unfold noEdgeWsB at ha hb ⊢
  rw [Bool.and_eq_true] at ha hb ⊢
  constructor
  · rw [head?_append_left hna]
    exact ha.1
  · have : (' ' :: b).getLast? = b.getLast? := by
      have := getLast?_append_right (a := [' ']) hnb
      simpa using this
    rw [getLast?_append_right (by simp), this]
    exact hb.2

/-! ### The overlap builder: length bound and sentence alignment -/

theorem goOverlap_length_le (o : Nat) :
    ∀ (rev : List (List Char)) (temp : List Char), temp.length ≤ o →
      (goOverlap o rev temp).length ≤ o := by
  intro rev
  induction rev with
  | nil => intro temp h; exact h
  | cons s rest ih =>
    intro temp h
    unfold goOverlap
    by_cases hc : (temp ++ ' ' :: s).length ≤ o
    · rw [if_pos hc]
      apply ih
      simp only [List.length_append, List.length_cons] at hc ⊢
      omega
    · rw [if_neg hc]
      exact h

theorem goOverlap_structure (o : Nat) :
    ∀ (rev : List (List Char)) (temp : List Char),
      goOverlap o rev temp = temp ∨
        ∃ s rest2, s ∈ rev ∧ goOverlap o rev temp = s ++ ' ' :: rest2 := by
  intro rev
  induction rev with
  | nil => intro temp; left; rfl
  | cons s rest ih =>
    intro temp
    unfold goOverlap
    by_cases hc : (temp ++ ' ' :: s).length ≤ o
    · rw [if_pos hc]
      rcases ih (s ++ ' ' :: temp) with h | ⟨s2, r2, hmem, heq⟩
      · right; exact ⟨s, temp, List.mem_cons_self .., by rw [h]⟩
      · right; exact ⟨s2, r2, List.mem_cons_of_mem _ hmem, heq⟩
    · rw [if_neg hc]
      left; rfl

theorem pyStrip_prefix_of_append {s x : List Char} (hs : noEdgeWsB s = true) (hne : s ≠ []) :
    List.IsPrefix s (pyStrip (s ++ x)) := by
  unfold noEdgeWsB at hs
  rw [Bool.and_eq_true] at hs
  unfold pyStrip
  have e1 : (s ++ x).dropWhile isPySpace = s ++ x := by
    apply dropWhile_eq_self_of_head
    intro c hc
    rw [head?_append_left hne] at hc
    have := hs.1
    rw [hc] at this
    simpa using this
  rw [e1, List.reverse_append]
  by_cases hx : x.reverse.dropWhile isPySpace = []
  · rw [List.dropWhile_append, hx]
    simp only [List.isEmpty_nil, if_pos]
    have e2 : s.reverse.dropWhile isPySpace = s.reverse := by
      apply dropWhile_eq_self_of_head
      intro c hc
      rw [List.head?_reverse] at hc
      have := hs.2
      rw [hc] at this
      simpa using this
    rw [e2, List.reverse_reverse]
  · rw [List.dropWhile_append]
    rw [if_neg (by simpa using hx)]
    rw [List.reverse_append, List.reverse_reverse]
    exact ⟨(x.reverse.dropWhile isPySpace).reverse, rfl⟩

/-! ### Fixed points of the artifact cleanup -/

theorem collapseWsF_nil (n : Nat) : collapseWsF n [] = [] := by
  cases n <;> rfl

theorem tidyB_tail {c d : Char} {rest : List Char} (h : tidyB (c :: d :: rest) = true) :
    tidyB (d :: rest) = true := by
  unfold tidyB at h
  rw [Bool.and_eq_true] at h
  exact h.2

theorem tidyB_pair {c d : Char} {rest : List Char} (h : tidyB (c :: d :: rest) = true)
    (hc : isPySpace c = true) :
    c = ' ' ∧ isPySpace d = false ∧ isCleanupPunct d = false := by
  unfold tidyB at h
  rw [Bool.and_eq_true] at h
  have h1 := h.1
  rw [hc] at h1
  simp only [Bool.not_true, Bool.false_or, Bool.and_eq_true, beq_iff_eq,
    Bool.not_eq_true'] at h1
  exact ⟨h1.1.1, h1.1.2, h1.2⟩

theorem tidyB_getLast : ∀ (l : List Char), tidyB l = true →
    ∀ c, l.getLast? = some c → isPySpace c = false
  | [], _, _, h => by simp at h
  | [d], ht, c, h => by
    simp only [List.getLast?_singleton, Option.some.injEq] at h
    subst h
    simpa [tidyB] using ht
  | d :: e :: rest, ht, c, h => by
    have : (d :: e :: rest).getLast? = (e :: rest).getLast? := rfl
    rw [this] at h
    exact tidyB_getLast (e :: rest) (tidyB_tail ht) c h

theorem noEdge_of_wellSpaced {l : List Char} (h : wellSpaced l = true) :
    noEdgeWsB l = true := by
  cases l with
  | nil => rfl
  | cons c cs =>
    unfold wellSpaced at h
    rw [Bool.and_eq_true] at h
    unfold noEdgeWsB
    rw [Bool.and_eq_true]
    constructor
    · simpa using h.1
    · cases hl : (c :: cs).getLast? with
      | none => rfl
      | some d => simp [tidyB_getLast (c :: cs) h.2 d hl]

theorem wellSpaced_ne_nil {l : List Char} (h : wellSpaced l = true) : l ≠ [] := by
  cases l with
  | nil => simp [wellSpaced] at h
  | cons c cs => simp

theorem collapseWsF_id : ∀ (n : Nat) (l : List Char), l.length ≤ n → tidyB l = true →
    collapseWsF n l = l
  | 0, l, hn, _ => by
    have : l = [] := List.length_eq_zero.mp (Nat.le_zero.mp hn)
    subst this
    rfl
  | n + 1, [], _, _ => rfl
  | n + 1, [c], _, ht => by
    have hc : isPySpace c = false := by simpa [tidyB] using ht
    unfold collapseWsF
    rw [if_neg (by simp [hc])]
    rw [collapseWsF_nil]
  | n + 1, c :: d :: rest, hn, ht => by
    unfold collapseWsF
    by_cases hc : isPySpace c = true
    · obtain ⟨hsp, hd, _⟩ := tidyB_pair ht hc
      rw [if_pos (by simp [hc])]
      rw [List.dropWhile_cons, if_neg (by simp [hd])]
      rw [collapseWsF_id n (d :: rest) (by simpa using Nat.le_of_succ_le_succ hn)
        (tidyB_tail ht)]
      rw [hsp]
    · rw [if_neg (by simpa using hc)]
      rw [collapseWsF_id n (d :: rest) (by simpa using Nat.le_of_succ_le_succ hn)
        (tidyB_tail ht)]

theorem punctFixF_id : ∀ (n : Nat) (l : List Char), l.length ≤ n → tidyB l = true →
    punctFixF n l = l
  | 0, l, hn, _ => by
    have : l = [] := List.length_eq_zero.mp (Nat.le_zero.mp hn)
    subst this
    rfl
  | n + 1, [], _, _ => rfl
  | n + 1, [c], _, ht => by
    have hc : isPySpace c = false := by simpa [tidyB] using ht
    unfold punctFixF
    rw [if_neg (by simp [hc])]
    cases n <;> rfl
  | n + 1, c :: d :: rest, hn, ht => by
    unfold punctFixF
    by_cases hc : isPySpace c = true
    · obtain ⟨hsp, hd, hp⟩ := tidyB_pair ht hc
      rw [if_pos (by simp [hc])]
      rw [List.dropWhile_cons, if_neg (by simp [hd])]
      simp only [hp, Bool.false_eq_true, if_false]
      rw [punctFixF_id n (d :: rest) (by simpa using Nat.le_of_succ_le_succ hn)
        (tidyB_tail ht)]
      simp [List.takeWhile_cons, hd]
    · rw [if_neg (by simpa using hc)]
      rw [punctFixF_id n (d :: rest) (by simpa using Nat.le_of_succ_le_succ hn)
        (tidyB_tail ht)]

theorem tidyB_of_wellSpaced {l : List Char} (h : wellSpaced l = true) : tidyB l = true := by
  cases l with
  | nil => rfl
  | cons c cs =>
    unfold wellSpaced at h
    rw [Bool.and_eq_true] at h
    exact h.2

theorem collapseWs_id_of_wellSpaced {l : List Char} (h : wellSpaced l = true) :
    collapseWs l = l :=
  collapseWsF_id l.length l (le_refl _) (tidyB_of_wellSpaced h)

theorem punctFix_id_of_wellSpaced {l : List Char} (h : wellSpaced l = true) :
    punctFix l = l :=
  punctFixF_id l.length l (le_refl _) (tidyB_of_wellSpaced h)

theorem pyStrip_id_of_wellSpaced {l : List Char} (h : wellSpaced l = true) :
    pyStrip l = l :=
  pyStrip_eq_self_of_noEdge (noEdge_of_wellSpaced h)

theorem translateChunk_id_of_wellSpaced {c : List Char} (h : wellSpaced c = true) :
    translateChunk Option.some c = c := by
  unfold translateChunk
  rw [pyStrip_id_of_wellSpaced h]
  have hne : c ≠ [] := wellSpaced_ne_nil h
  change (if (!(pyStrip c).isEmpty) = true then punctFix (collapseWs (pyStrip c)) else c) = c
  rw [pyStrip_id_of_wellSpaced h]
  rw [if_pos (by simpa using hne)]
  rw [collapseWs_id_of_wellSpaced h, punctFix_id_of_wellSpaced h]

/-! ### Reinserting separators can only lengthen the chunk material -/

theorem weave_length_ge : ∀ (seps chunks : List (List Char)),
    (chunks.map List.length).sum ≤ (weave seps chunks).length := by
  intro seps chunks
  induction chunks generalizing seps with
  | nil => simp
  | cons c rest ih =>
    cases seps with
    | nil =>
      unfold weave
      simp only [List.map_cons, List.sum_cons, List.length_append]
      have := ih ([] : List (List Char))
      omega
    | cons sep seps2 =>
      unfold weave
      simp only [List.map_cons, List.sum_cons, List.length_append]
      have := ih seps2
      omega

/-- C1: the chunker is not lossless.  For the input `"Aa bb. Cc dd. Ee ff."`
with `chunk_size = 10` and `overlap = 8` the produced chunks are
`["Aa bb.", "Aa bb. Cc dd.", "Cc dd. Ee ff."]` — the overlap duplicates whole
sentences into the following chunk, so the chunks hold 32 characters while the
input has 20, and no reinsertion of separator strings around or between the
chunks (any `weave`) can reproduce the input. -/
theorem chunking_not_lossless :
    ¬ ∃ seps : List (List Char), weave seps (create_context_aware_chunks t1 10 8) = t1 := by
  rintro ⟨seps, h⟩
  have hge := weave_length_ge seps (create_context_aware_chunks t1 10 8)
  rw [h] at hge
  have h1 : ((create_context_aware_chunks t1 10 8).map List.length).sum = 32 := by decide
  have h2 : t1.length = 20 := by decide
  omega

/-- C3: the size bound fails.  For `"Aaaa bbbb cccc. Dddd eeee ffff."` with
`chunk_size = 12` and `overlap = 0` every chunk is a whole 15-character
sentence containing spaces: an oversized chunk need not be a single atomic
token, because the splitter never descends below sentence granularity. -/
theorem size_bound_violated :
    ¬ (∀ c ∈ create_context_aware_chunks t3 12 0,
        c.length ≤ 12 ∨ ∀ ch ∈ c, isPySpace ch = false) := by decide

/-- C6: per-chunk fail-open.  Whenever the backend call on the stripped chunk
fails — it raises (modelled by `none`) or returns a result that strips to the
empty string — the outcome recorded for that chunk is exactly the original
chunk text; the dispatcher is a total function, so no failure propagates. -/
theorem chunk_failure_fail_open (translate : List Char → Option (List Char))
    (chunk : List Char)
    (h : ∀ r, translate (pyStrip chunk) = some r → pyStrip r = []) :
    translateChunk translate chunk = chunk := by
  unfold translateChunk
  cases htr : translate (pyStrip chunk) with
  | none => rfl
  | some r =>
    have hr := h r htr
    change (if (!(pyStrip r).isEmpty) = true then punctFix (collapseWs (pyStrip r))
      else chunk) = chunk
    rw [hr]
    simp

theorem chunk_failure_fail_open_witness :
    translateChunk (fun _ => none) "Good day.".data = "Good day.".data :=
  chunk_failure_fail_open (fun _ => none) "Good day.".data (fun _ h => nomatch h)

/-- C7: context boundedness.  The overlap string built by walking back over the
already-consumed sentences is, after stripping, at most `overlapLim` characters
long, and it is either empty or begins with one of those sentences in full —
it starts at a sentence boundary, never in the middle of a word. -/
theorem context_bounded_and_sentence_aligned (overlapLim : Nat)
    (rev : List (List Char)) (H : ∀ s ∈ rev, noEdgeWsB s = true ∧ s ≠ []) :
    (pyStrip (goOverlap overlapLim rev [])).length ≤ overlapLim ∧
    (pyStrip (goOverlap overlapLim rev []) = [] ∨
      ∃ s ∈ rev, List.IsPrefix s (pyStrip (goOverlap overlapLim rev []))) := by
  constructor
  · exact le_trans (pyStrip_length_le _) (goOverlap_length_le _ _ _ (by simp))
  · rcases goOverlap_structure overlapLim rev [] with h | ⟨s, r2, hmem, heq⟩
    · left
      rw [h]
      rfl
    · right
      refine ⟨s, hmem, ?_⟩
      rw [heq]
      exact pyStrip_prefix_of_append (x := ' ' :: r2) (H s hmem).1 (H s hmem).2

theorem context_bounded_and_sentence_aligned_witness :
    (pyStrip (goOverlap 8 ["Aa bb.".data] [])).length ≤ 8 ∧
    (pyStrip (goOverlap 8 ["Aa bb.".data] []) = [] ∨
      ∃ s ∈ ["Aa bb.".data], List.IsPrefix s (pyStrip (goOverlap 8 ["Aa bb.".data] []))) :=
  context_bounded_and_sentence_aligned 8 ["Aa bb.".data] (by decide)

/-- C8: the claimed character-level fallback does not exist.  For the previous
chunk `"Aaaa bbbb cccc."` and `overlapLimit = 5` no whole trailing sentence
fits (each costs its length plus one separator), the code's extracted overlap
is empty — while the fallback the claim describes (last five characters,
trimmed to a word boundary) is the non-empty `"cccc."` — and the next chunk of
`create_context_aware_chunks` starts with the bare sentence, carrying no
context at all. -/
theorem no_char_fallback_counterexample :
    (∀ s ∈ ["Aaaa bbbb cccc.".data], 5 < s.length + 1) ∧
    goOverlap 5 ["Aaaa bbbb cccc.".data] [] = [] ∧
    specFallbackContext "Aaaa bbbb cccc.".data 5 ≠ [] ∧
    create_context_aware_chunks t3 16 5 =
      ["Aaaa bbbb cccc.".data, "Dddd eeee ffff.".data] := by decide

/-- C8 (amended): when even the most recent sentence does not fit within the
overlap limit together with its separator, the overlap loop takes nothing and
the extracted context is empty — there is no character-level fallback. -/
theorem context_empty_when_no_sentence_fits (o : Nat) (s : List Char)
    (rest : List (List Char)) (h : o < s.length + 1) :
    goOverlap o (s :: rest) [] = [] := by
  unfold goOverlap
  rw [if_neg]
  simp only [List.nil_append, List.length_cons]
  omega

theorem context_empty_when_no_sentence_fits_witness :
    (5 < "Aaaa bbbb cccc.".data.length + 1) ∧
    goOverlap 5 ["Aaaa bbbb cccc.".data] [] = [] :=
  ⟨by decide, context_empty_when_no_sentence_fits 5 "Aaaa bbbb cccc.".data [] (by decide)⟩

/-- C9: idempotent splitting of short text.  A text whose length is at most the
chunk limit is returned unchanged as the single chunk. -/
theorem short_text_single_chunk (text : List Char) (chunk_size overlap : Nat)
    (h : text.length ≤ chunk_size) :
    create_context_aware_chunks text chunk_size overlap = [text] := by
  unfold create_context_aware_chunks
  rw [if_pos h]

theorem short_text_single_chunk_witness :
    ("Hello world.".data.length ≤ 1500) ∧
    create_context_aware_chunks "Hello world.".data 1500 200 = ["Hello world.".data] :=
  ⟨by decide, short_text_single_chunk "Hello world.".data 1500 200 (by decide)⟩

/-- C10: total non-empty fallback.  Whatever the injected backend does, the
pipeline of a non-empty text returns a non-empty string: either the cleaned
joined translation is non-empty and is returned, or the original text is
returned verbatim. -/
theorem pipeline_output_nonempty (translate : List Char → Option (List Char))
    (text : List Char) (h : text ≠ []) :
    enhanced_translate_with_context translate text ≠ [] := by
  have hsh : enhanced_translate_with_context translate text =
      (if (!(pyStrip (collapseWs (joinChunks (dispatchChunks translate
          (create_context_aware_chunks text 1500 200))))).isEmpty) = true
        then pyStrip (collapseWs (joinChunks (dispatchChunks translate
          (create_context_aware_chunks text 1500 200))))
        else text) := rfl
  rw [hsh]
  set final := pyStrip (collapseWs (joinChunks (dispatchChunks translate
    (create_context_aware_chunks text 1500 200))))
  by_cases he : final.isEmpty
  · rw [he]
    simpa using h
  · rw [Bool.not_eq_true] at he
    rw [he]
    simp only [Bool.not_false, if_true]
    intro hx
    rw [hx] at he
    simp at he

/-! ### The family `joinSp (List.replicate n sent10)` of long inputs -/

theorem joinSp_rep_succ (s : List Char) (k : Nat) :
    joinSp (List.replicate (k + 2) s) = s ++ ' ' :: joinSp (List.replicate (k + 1) s) := by
  rw [show k + 2 = (k + 1) + 1 from rfl, List.replicate_succ, List.replicate_succ]
  rfl

theorem joinSp_rep_congr {m n : Nat} (h : m = n) :
    joinSp (List.replicate m sent10) = joinSp (List.replicate n sent10) := by
  rw [h]

theorem joinSp_rep_head (k : Nat) :
    ∃ r2, joinSp (List.replicate (k + 1) sent10) = 'A' :: r2 := by
  cases k with
  | zero => exact ⟨"aaa bbbb.".data, rfl⟩
  | succ k =>
    rw [joinSp_rep_succ]
    exact ⟨"aaa bbbb.".data ++ ' ' :: joinSp (List.replicate (k + 1) sent10), rfl⟩

theorem joinSp_rep_ne_nil (k : Nat) : joinSp (List.replicate (k + 1) sent10) ≠ [] := by
  obtain ⟨r2, h⟩ := joinSp_rep_head k
  rw [h]
  simp

theorem joinSp_rep_len : ∀ k, (joinSp (List.replicate (k + 1) sent10)).length = 11 * k + 10
  | 0 => rfl
  | k + 1 => by
    rw [joinSp_rep_succ, List.length_append, List.length_cons, joinSp_rep_len k]
    show 10 + (11 * k + 10 + 1) = 11 * (k + 1) + 10
    omega

theorem joinSp_rep_split (a b : Nat) :
    joinSp (List.replicate (a + 1) sent10) ++ ' ' :: joinSp (List.replicate (b + 1) sent10) =
      joinSp (List.replicate (a + b + 2) sent10) := by
  induction a with
  | zero =>
    rw [joinSp_rep_congr (show 0 + b + 2 = b + 2 from by omega)]
    rw [joinSp_rep_succ sent10 b]
    rfl
  | succ a ih =>
    rw [joinSp_rep_congr (show a + 1 + 1 = a + 2 from rfl)]
    rw [joinSp_rep_succ sent10 a]
    rw [List.append_assoc, List.cons_append]
    rw [ih]
    rw [joinSp_rep_congr (show a + 1 + b + 2 = (a + b + 1) + 2 from by omega)]
    rw [joinSp_rep_succ sent10 (a + b + 1)]

theorem tidyB_block (r2 : List Char) (h : tidyB ('A' :: r2) = true) :
    tidyB (sent10 ++ ' ' :: 'A' :: r2) = true := by
  show tidyB ('A' :: 'a' :: 'a' :: 'a' :: ' ' :: 'b' :: 'b' :: 'b' :: 'b' :: '.' ::
    ' ' :: 'A' :: r2) = true
  simp only [tidyB, isPySpace, isCleanupPunct, Bool.and_eq_true]
  refine ⟨by decide, by decide, by decide, by decide, by decide, by decide, by decide,
    by decide, by decide, by decide, by decide, ?_⟩
  simpa [tidyB] using h

theorem wellSpaced_rep : ∀ k, wellSpaced (joinSp (List.replicate (k + 1) sent10)) = true
  | 0 => by decide
  | k + 1 => by
    obtain ⟨r2, hr2⟩ := joinSp_rep_head k
    have ht : tidyB ('A' :: r2) = true := by
      have := tidyB_of_wellSpaced (wellSpaced_rep k)
      rw [hr2] at this
      exact this
    rw [joinSp_rep_succ, hr2]
    show wellSpaced ('A' :: ("aaa bbbb.".data ++ ' ' :: 'A' :: r2)) = true
    unfold wellSpaced
    rw [Bool.and_eq_true]
    constructor
    · decide
    · exact tidyB_block r2 ht

theorem noEdge_rep (k : Nat) : noEdgeWsB (joinSp (List.replicate (k + 1) sent10)) = true :=
  noEdge_of_wellSpaced (wellSpaced_rep k)

theorem noNl_rep : ∀ k, '\n' ∉ joinSp (List.replicate (k + 1) sent10)
  | 0 => by decide
  | k + 1 => by
    rw [joinSp_rep_succ]
    intro h
    rcases List.mem_append.1 h with h | h
    · exact absurd h (by decide)
    · rcases List.mem_cons.1 h with h | h
      · exact absurd h (by decide)
      · exact noNl_rep k h

theorem getLast_rep : ∀ k, (joinSp (List.replicate (k + 1) sent10)).getLast? = some '.'
  | 0 => by decide
  | k + 1 => by
    rw [joinSp_rep_succ]
    rw [getLast?_append_right (b := ' ' :: joinSp (List.replicate (k + 1) sent10)) (by simp)]
    rw [show ' ' :: joinSp (List.replicate (k + 1) sent10) =
      [' '] ++ joinSp (List.replicate (k + 1) sent10) from rfl]
    rw [getLast?_append_right (joinSp_rep_ne_nil k)]
    exact getLast_rep k

/-! ### Symbolic runs of the sentence splitter over the long inputs -/

theorem scan_block (m : Nat) (prev4 r2 : List Char) :
    sentSplitF (m + 11) prev4 [] (sent10 ++ ' ' :: 'A' :: r2) =
      sent10 :: sentSplitF m [' ', '.', 'b', 'b'] [] ('A' :: r2) := rfl

theorem scan_block_nl (m : Nat) (prev4 r2 : List Char) :
    sentSplitF (m + 11) prev4 [] (sent10 ++ '\n' :: '\n' :: 'A' :: r2) =
      sent10 :: sentSplitF m ['\n', '\n', '.', 'b'] [] ('A' :: r2) := rfl

theorem scan_last (m : Nat) (prev4 : List Char) :
    sentSplitF (m + 10) prev4 [] sent10 = [sent10] := by
  cases m with
  | zero => rfl
  | succ m => rfl

theorem scan_rep : ∀ (k m : Nat) (prev4 : List Char),
    sentSplitF (11 * k + 10 + m) prev4 [] (joinSp (List.replicate (k + 1) sent10)) =
      List.replicate (k + 1) sent10
  | 0, m, prev4 => by
    rw [show 11 * 0 + 10 + m = m + 10 from by omega]
    show sentSplitF (m + 10) prev4 [] sent10 = [sent10]
    exact scan_last m prev4
  | k + 1, m, prev4 => by
    obtain ⟨r2, hr2⟩ := joinSp_rep_head k
    rw [joinSp_rep_succ, hr2]
    rw [show 11 * (k + 1) + 10 + m = (11 * k + 10 + m) + 11 from by omega]
    rw [scan_block]
    rw [← hr2]
    rw [scan_rep k m [' ', '.', 'b', 'b']]
    rw [← List.replicate_succ]

theorem scan_chain : ∀ (j m : Nat) (prev4 : List Char) (rest r2 : List Char),
    rest = 'A' :: r2 →
    sentSplitF (11 * (j + 1) + m) prev4 []
        (joinSp (List.replicate (j + 1) sent10) ++ ' ' :: rest) =
      List.replicate (j + 1) sent10 ++ sentSplitF m [' ', '.', 'b', 'b'] [] rest
  | 0, m, prev4, rest, r2, hr => by
    subst hr
    rw [show 11 * (0 + 1) + m = m + 11 from by omega]
    show sentSplitF (m + 11) prev4 [] (sent10 ++ ' ' :: 'A' :: r2) = _
    rw [scan_block]
    rfl
  | j + 1, m, prev4, rest, r2, hr => by
    subst hr
    obtain ⟨r3, hr3⟩ := joinSp_rep_head j
    rw [joinSp_rep_succ, List.append_assoc, List.cons_append]
    rw [hr3, List.cons_append]
    rw [show 11 * (j + 1 + 1) + m = (11 * (j + 1) + m) + 11 from by omega]
    rw [scan_block]
    rw [← List.cons_append, ← hr3]
    rw [scan_chain j m [' ', '.', 'b', 'b'] ('A' :: r2) r2 rfl]
    simp [List.replicate_succ]

theorem sentSplit_t4 : sentSplit t4 = List.replicate 140 sent10 := by
  show sentSplitF t4.length [] [] t4 = _
  have hlen : t4.length = 11 * 139 + 10 + 0 := by
    show (joinSp (List.replicate (139 + 1) sent10)).length = _
    rw [joinSp_rep_len]
  rw [hlen]
  exact scan_rep 139 0 []

theorem sentSplit_t5 : sentSplit t5 = List.replicate 140 sent10 := by
  have hsplit := (joinSp_rep_split 134 0).symm
  rw [show (134 : Nat) + 0 + 2 = 136 from by omega,
    show (134 : Nat) + 1 = 135 from by omega,
    show joinSp (List.replicate (0 + 1) sent10) = sent10 from rfl] at hsplit
  have hlen : t5.length = 11 * (134 + 1) + 55 := by
    show (joinSp (List.replicate (135 + 1) sent10) ++
      '\n' :: '\n' :: joinSp (List.replicate (3 + 1) sent10)).length = _
    rw [List.length_append, joinSp_rep_len, List.length_cons, List.length_cons,
      joinSp_rep_len]
  show sentSplitF t5.length [] [] t5 = _
  rw [hlen]
  show sentSplitF (11 * (134 + 1) + 55) [] []
    (joinSp (List.replicate 136 sent10) ++ '\n' :: '\n' ::
      joinSp (List.replicate 4 sent10)) = _
  rw [hsplit, List.append_assoc, List.cons_append]
  rw [scan_chain 134 55 [] (sent10 ++ '\n' :: '\n' :: joinSp (List.replicate 4 sent10))
    ("aaa bbbb.".data ++ '\n' :: '\n' :: joinSp (List.replicate 4 sent10)) rfl]
  obtain ⟨r4, hr4⟩ := joinSp_rep_head 3
  rw [show (4 : Nat) = 3 + 1 from rfl, hr4]
  rw [show (55 : Nat) = 44 + 11 from rfl]
  rw [scan_block_nl]
  rw [← hr4]
  rw [show (44 : Nat) = 11 * 3 + 10 + 1 from rfl]
  rw [scan_rep 3 1 ['\n', '\n', '.', 'b']]
  rw [← List.replicate_succ, ← List.replicate_add]

/-! ### Symbolic runs of the chunking loop over the long inputs -/

theorem isEmpty_false_of_ne_nil {l : List Char} (h : l ≠ []) : l.isEmpty = false := by
  cases l with
  | nil => exact absurd rfl h
  | cons c cs => rfl

theorem chunkLoop_nil (C o : Nat) (rev acc : List (List Char)) (cur : List Char)
    (hcur : noEdgeWsB cur = true) (hne : cur ≠ []) :
    chunkLoop C o rev acc cur [] = acc ++ [cur] := by
  unfold chunkLoop
  rw [pyStrip_eq_self_of_noEdge hcur]
  simp [isEmpty_false_of_ne_nil hne]

theorem chunkLoop_start (C o : Nat) (rev acc : List (List Char)) (s : List Char)
    (rest : List (List Char)) :
    chunkLoop C o rev acc [] (s :: rest) = chunkLoop C o (s :: rev) acc s rest := by
  simp [chunkLoop]

theorem chunkLoop_step (C o : Nat) (rev acc : List (List Char)) (cur s : List Char)
    (rest : List (List Char)) (hcur : noEdgeWsB cur = true) (hne : cur ≠ [])
    (hlen : (cur ++ ' ' :: s).length ≤ C) :
    chunkLoop C o rev acc cur (s :: rest) =
      chunkLoop C o (s :: rev) acc (cur ++ ' ' :: s) rest := by
  simp only [chunkLoop, isEmpty_false_of_ne_nil hne, endsWithSpace_eq_false_of_noEdge hcur,
    Bool.not_false, Bool.and_self, if_true, Bool.and_true]
  rw [decide_eq_false (not_lt.mpr hlen)]
  simp

theorem chunkLoop_step_flush (C o : Nat) (rev acc : List (List Char)) (cur s : List Char)
    (rest : List (List Char)) (hcur : noEdgeWsB cur = true) (hne : cur ≠ [])
    (hlen : C < (cur ++ ' ' :: s).length) :
    chunkLoop C o rev acc cur (s :: rest) =
      chunkLoop C o (s :: rev) (acc ++ [cur])
        (if !(pyStrip (goOverlap o rev [])).isEmpty
         then pyStrip (goOverlap o rev []) ++ ' ' :: s else s) rest := by
  simp only [chunkLoop, isEmpty_false_of_ne_nil hne, endsWithSpace_eq_false_of_noEdge hcur,
    Bool.not_false, Bool.and_self, if_true, Bool.and_true]
  rw [decide_eq_true hlen]
  rw [pyStrip_eq_self_of_noEdge hcur]
  simp

/-- Separator-terminated overlap accumulator: the value of `temp_overlap` after
taking `i` sentences, each of them `sent10`. -/
def tempOf : Nat → List Char
  | 0 => []
  | i + 1 => sent10 ++ ' ' :: tempOf i

theorem tempOf_len : ∀ i, (tempOf i).length = 11 * i
  | 0 => rfl
  | i + 1 => by
    show (sent10 ++ ' ' :: tempOf i).length = 11 * (i + 1)
    rw [List.length_append, List.length_cons, tempOf_len i]
    have hs : sent10.length = 10 := rfl
    omega

theorem goOverlap_rep : ∀ (mm i : Nat), i ≤ 18 →
    goOverlap 200 (List.replicate mm sent10) (tempOf i) = tempOf (min 18 (i + mm))
  | 0, i, hi => by
    rw [show min 18 (i + 0) = i from by omega]
    rfl
  | mm + 1, i, hi => by
    rw [List.replicate_succ]
    unfold goOverlap
    by_cases hlt : i < 18
    · rw [if_pos (by
        rw [List.length_append, List.length_cons, tempOf_len i]
        have hs : sent10.length = 10 := rfl
        omega)]
      rw [show sent10 ++ ' ' :: tempOf i = tempOf (i + 1) from rfl]
      rw [goOverlap_rep mm (i + 1) (by omega)]
      rw [show min 18 (i + 1 + mm) = min 18 (i + (mm + 1)) from by omega]
    · have hi18 : i = 18 := by omega
      subst hi18
      rw [if_neg (by
        rw [List.length_append, List.length_cons, tempOf_len 18]
        have hs : sent10.length = 10 := rfl
        omega)]
      rw [show min 18 (18 + (mm + 1)) = 18 from by omega]

theorem tempOf_as_joinSp : ∀ i, tempOf (i + 1) = joinSp (List.replicate (i + 1) sent10) ++ [' ']
  | 0 => rfl
  | i + 1 => by
    show sent10 ++ ' ' :: tempOf (i + 1) = _
    rw [tempOf_as_joinSp i]
    rw [joinSp_rep_succ]
    simp

theorem pyStrip_snoc_space {X : List Char} (h : noEdgeWsB X = true) (hne : X ≠ []) :
    pyStrip (X ++ [' ']) = X := by
  unfold noEdgeWsB at h
  rw [Bool.and_eq_true] at h
  unfold pyStrip
  have e1 : (X ++ [' ']).dropWhile isPySpace = X ++ [' '] := by
    apply dropWhile_eq_self_of_head
    intro c hc
    rw [head?_append_left hne] at hc
    have := h.1
    rw [hc] at this
    simpa using this
  rw [e1, List.reverse_append]
  rw [show (([' '] : List Char).reverse ++ X.reverse) = ' ' :: X.reverse from rfl]
  rw [List.dropWhile_cons, if_pos (by decide)]
  have e2 : X.reverse.dropWhile isPySpace = X.reverse := by
    apply dropWhile_eq_self_of_head
    intro c hc
    rw [List.head?_reverse] at hc
    have := h.2
    rw [hc] at this
    simpa using this
  rw [e2, List.reverse_reverse]

theorem pyStrip_tempOf18 : pyStrip (tempOf 18) = joinSp (List.replicate 18 sent10) := by
  rw [show (18 : Nat) = 17 + 1 from rfl, tempOf_as_joinSp]
  exact pyStrip_snoc_space (noEdge_rep 17) (joinSp_rep_ne_nil 17)
theorem joinSp_rep_snoc (k : Nat) :
    joinSp (List.replicate (k + 1) sent10) ++ ' ' :: sent10 =
      joinSp (List.replicate (k + 2) sent10) := by
  have h := joinSp_rep_split k 0
  rw [show joinSp (List.replicate (0 + 1) sent10) = sent10 from rfl] at h
  rw [joinSp_rep_congr (show k + 0 + 2 = k + 2 from by omega)] at h
  exact h

theorem pack_no_flush : ∀ (j k : Nat) (rev acc : List (List Char)),
    k + 1 + j ≤ 136 →
    chunkLoop 1500 200 rev acc (joinSp (List.replicate (k + 1) sent10))
      (List.replicate j sent10) =
      acc ++ [joinSp (List.replicate (k + 1 + j) sent10)] := by
  intro j
  induction j with
  | zero =>
    intro k rev acc h
    rw [List.replicate_zero]
    rw [chunkLoop_nil 1500 200 rev acc _ (noEdge_rep k) (joinSp_rep_ne_nil k)]
  | succ j ih =>
    intro k rev acc h
    rw [show List.replicate (j + 1) sent10 = sent10 :: List.replicate j sent10 from
      List.replicate_succ _ _]
    rw [chunkLoop_step 1500 200 rev acc _ sent10 _ (noEdge_rep k) (joinSp_rep_ne_nil k)
      (by
        rw [List.length_append, List.length_cons, joinSp_rep_len k]
        have hs : sent10.length = 10 := rfl
        omega)]
    rw [joinSp_rep_snoc k]
    rw [joinSp_rep_congr (show k + 2 = (k + 1) + 1 from rfl)]
    rw [ih (k + 1) (sent10 :: rev) acc (by omega)]
    rw [joinSp_rep_congr (show k + 1 + 1 + j = k + 1 + (j + 1) from by omega)]

theorem pack_flush_140 : ∀ (j k : Nat) (acc : List (List Char)),
    k + 1 + j = 140 → k + 1 ≤ 136 →
    chunkLoop 1500 200 (List.replicate (k + 1) sent10) acc
      (joinSp (List.replicate (k + 1) sent10)) (List.replicate j sent10) =
      acc ++ [joinSp (List.replicate 136 sent10), joinSp (List.replicate 22 sent10)] := by
  intro j
  induction j with
  | zero => intro k acc h h136; omega
  | succ j ih =>
    intro k acc h h136
    by_cases hk : k + 1 < 136
    · rw [show List.replicate (j + 1) sent10 = sent10 :: List.replicate j sent10 from
        List.replicate_succ _ _]
      rw [chunkLoop_step 1500 200 _ acc _ sent10 _ (noEdge_rep k) (joinSp_rep_ne_nil k)
        (by
          rw [List.length_append, List.length_cons, joinSp_rep_len k]
          have hs : sent10.length = 10 := rfl
          omega)]
      rw [joinSp_rep_snoc k]
      rw [joinSp_rep_congr (show k + 2 = (k + 1) + 1 from rfl)]
      rw [show sent10 :: List.replicate (k + 1) sent10 =
        List.replicate ((k + 1) + 1) sent10 from (List.replicate_succ _ _).symm]
      exact ih (k + 1) acc (by omega) (by omega)
    · have hk135 : k = 135 := by omega
      subst hk135
      have hj3 : j = 3 := by omega
      subst hj3
      rw [show List.replicate (3 + 1) sent10 = sent10 :: List.replicate 3 sent10 from
        List.replicate_succ _ _]
      rw [chunkLoop_step_flush 1500 200 _ acc _ sent10 _ (noEdge_rep 135)
        (joinSp_rep_ne_nil 135)
        (by
          rw [List.length_append, List.length_cons, joinSp_rep_len 135]
          have hs : sent10.length = 10 := rfl
          omega)]
      have hov : goOverlap 200 (List.replicate (135 + 1) sent10) [] = tempOf 18 := by
        have h2 := goOverlap_rep (135 + 1) 0 (by omega)
        rw [show min 18 (0 + (135 + 1)) = 18 from by omega] at h2
        exact h2
      rw [hov, pyStrip_tempOf18]
      rw [isEmpty_false_of_ne_nil (joinSp_rep_ne_nil 17)]
      rw [show (!false) = true from rfl, if_pos rfl]
      rw [show (18 : Nat) = 17 + 1 from rfl, joinSp_rep_snoc 17]
      rw [joinSp_rep_congr (show (17 : Nat) + 2 = 18 + 1 from by omega)]
      rw [pack_no_flush 3 18 _ _ (by omega)]
      simp [joinSp_rep_congr (show (18 : Nat) + 1 + 3 = 22 from by omega)]

/-! ### The chunker and pipeline on the two long inputs -/

theorem ess_of_rep140 (text : List Char) (h1 : pyStrip text = text)
    (h2 : sentSplit text = List.replicate 140 sent10) :
    enhanced_sentence_split text = List.replicate 140 sent10 := by
  show (if !(((sentSplit (pyStrip text)).map pyStrip).filter
        (fun s => !s.isEmpty && decide (1 < s.length))).isEmpty
      then ((sentSplit (pyStrip text)).map pyStrip).filter
        (fun s => !s.isEmpty && decide (1 < s.length))
      else [text]) = _
  rw [h1, h2, List.map_replicate]
  rw [show pyStrip sent10 = sent10 from by decide]
  rw [List.filter_eq_self.mpr (fun a ha => by
    rw [List.eq_of_mem_replicate ha]
    decide)]
  rw [show (List.replicate 140 sent10).isEmpty = false from rfl]
  rfl

theorem noEdge_t4 : noEdgeWsB t4 = true := noEdge_rep 139

theorem ess_t4 : enhanced_sentence_split t4 = List.replicate 140 sent10 :=
  ess_of_rep140 t4 (pyStrip_eq_self_of_noEdge noEdge_t4) sentSplit_t4

theorem noEdge_t5 : noEdgeWsB t5 = true := by
  unfold noEdgeWsB
  rw [Bool.and_eq_true]
  constructor
  · obtain ⟨r, hr⟩ := joinSp_rep_head 135
    rw [show t5 = joinSp (List.replicate 136 sent10) ++
      '\n' :: '\n' :: joinSp (List.replicate 4 sent10) from rfl]
    rw [head?_append_left (joinSp_rep_ne_nil 135), hr]
    rfl
  · rw [show t5 = joinSp (List.replicate 136 sent10) ++
      '\n' :: '\n' :: joinSp (List.replicate 4 sent10) from rfl]
    rw [getLast?_append_right (by simp)]
    rw [show ('\n' :: '\n' :: joinSp (List.replicate 4 sent10)) =
      ['\n', '\n'] ++ joinSp (List.replicate 4 sent10) from rfl]
    rw [getLast?_append_right (joinSp_rep_ne_nil 3)]
    rw [getLast_rep 3]
    rfl

theorem ess_t5 : enhanced_sentence_split t5 = List.replicate 140 sent10 :=
  ess_of_rep140 t5 (pyStrip_eq_self_of_noEdge noEdge_t5) sentSplit_t5

theorem chunks_of_rep140 (text : List Char) (hlong : ¬ text.length ≤ 1500)
    (hess : enhanced_sentence_split text = List.replicate 140 sent10) :
    create_context_aware_chunks text 1500 200 =
      [joinSp (List.replicate 136 sent10), joinSp (List.replicate 22 sent10)] := by
  show (if text.length ≤ 1500 then [text]
    else
      if (enhanced_sentence_split text).isEmpty then [text]
      else
        if !(chunkLoop 1500 200 [] [] [] (enhanced_sentence_split text)).isEmpty
        then chunkLoop 1500 200 [] [] [] (enhanced_sentence_split text)
        else [text]) = _
  rw [if_neg hlong, hess]
  rw [show (List.replicate 140 sent10).isEmpty = false from rfl]
  rw [show List.replicate 140 sent10 = sent10 :: List.replicate 139 sent10 from rfl]
  rw [chunkLoop_start]
  have hloop : chunkLoop 1500 200 [sent10] [] sent10 (List.replicate 139 sent10) =
      [joinSp (List.replicate 136 sent10), joinSp (List.replicate 22 sent10)] :=
    pack_flush_140 139 0 [] (by omega) (by omega)
  rw [hloop]
  rfl

theorem t4_len : t4.length = 1539 := joinSp_rep_len 139

theorem chunks_t4 : create_context_aware_chunks t4 1500 200 =
    [joinSp (List.replicate 136 sent10), joinSp (List.replicate 22 sent10)] :=
  chunks_of_rep140 t4 (by rw [t4_len]; omega) ess_t4

theorem t5_len : t5.length = 1540 := by
  show (joinSp (List.replicate (135 + 1) sent10) ++
    '\n' :: '\n' :: joinSp (List.replicate (3 + 1) sent10)).length = 1540
  rw [List.length_append, joinSp_rep_len, List.length_cons, List.length_cons,
    joinSp_rep_len]

theorem chunks_t5 : create_context_aware_chunks t5 1500 200 =
    [joinSp (List.replicate 136 sent10), joinSp (List.replicate 22 sent10)] :=
  chunks_of_rep140 t5 (by rw [t5_len]; omega) ess_t5
theorem dispatchChunks_cons (tr : List Char → Option (List Char)) (c : List Char)
    (rest : List (List Char)) (h : pyStrip c ≠ []) :
    dispatchChunks tr (c :: rest) = translateChunk tr c :: dispatchChunks tr rest := by
  conv_lhs => rw [dispatchChunks]
  rw [isEmpty_false_of_ne_nil h]
  simp

theorem translateChunk_none (c : List Char) :
    translateChunk (fun _ => none) c = c := rfl

theorem joinGo_step (acc c : List Char) (rest : List (List Char)) :
    joinGo acc (c :: rest) = joinGo (acc ++ ' ' :: c) rest := by
  conv_lhs => rw [joinGo]
  rw [ite_self]

theorem joinChunks_pair (c1 c2 : List Char) : joinChunks [c1, c2] = c1 ++ ' ' :: c2 := by
  show joinGo c1 [c2] = _
  rw [joinGo_step]
  rfl

theorem pipeline_of_chunks (tr : List Char → Option (List Char)) (text : List Char)
    (hchunks : create_context_aware_chunks text 1500 200 =
      [joinSp (List.replicate 136 sent10), joinSp (List.replicate 22 sent10)])
    (h1 : translateChunk tr (joinSp (List.replicate 136 sent10)) =
      joinSp (List.replicate 136 sent10))
    (h2 : translateChunk tr (joinSp (List.replicate 22 sent10)) =
      joinSp (List.replicate 22 sent10)) :
    enhanced_translate_with_context tr text = joinSp (List.replicate 158 sent10) := by
  have hs1 : pyStrip (joinSp (List.replicate 136 sent10)) ≠ [] := by
    rw [show pyStrip (joinSp (List.replicate 136 sent10)) =
      joinSp (List.replicate 136 sent10) from pyStrip_eq_self_of_noEdge (noEdge_rep 135)]
    exact joinSp_rep_ne_nil 135
  have hs2 : pyStrip (joinSp (List.replicate 22 sent10)) ≠ [] := by
    rw [show pyStrip (joinSp (List.replicate 22 sent10)) =
      joinSp (List.replicate 22 sent10) from pyStrip_eq_self_of_noEdge (noEdge_rep 21)]
    exact joinSp_rep_ne_nil 21
  show (if !(pyStrip (collapseWs (joinChunks (dispatchChunks tr
      (create_context_aware_chunks text 1500 200))))).isEmpty
    then pyStrip (collapseWs (joinChunks (dispatchChunks tr
      (create_context_aware_chunks text 1500 200))))
    else text) = _
  rw [hchunks]
  rw [dispatchChunks_cons tr _ _ hs1, dispatchChunks_cons tr _ _ hs2]
  rw [show dispatchChunks tr [] = [] from rfl]
  rw [h1, h2]
  rw [joinChunks_pair]
  have hj : joinSp (List.replicate 136 sent10) ++ ' ' :: joinSp (List.replicate 22 sent10) =
      joinSp (List.replicate 158 sent10) := joinSp_rep_split 135 21
  rw [hj]
  have hws : collapseWs (joinSp (List.replicate 158 sent10)) =
      joinSp (List.replicate 158 sent10) := collapseWs_id_of_wellSpaced (wellSpaced_rep 157)
  rw [hws]
  have hst : pyStrip (joinSp (List.replicate 158 sent10)) =
      joinSp (List.replicate 158 sent10) := pyStrip_eq_self_of_noEdge (noEdge_rep 157)
  rw [hst]
  rw [isEmpty_false_of_ne_nil (joinSp_rep_ne_nil 157)]
  rfl

theorem pipeline_t4_fail :
    enhanced_translate_with_context (fun _ => none) t4 = joinSp (List.replicate 158 sent10) :=
  pipeline_of_chunks (fun _ => none) t4 chunks_t4 (translateChunk_none _) (translateChunk_none _)

theorem pipeline_t4_id :
    enhanced_translate_with_context Option.some t4 = joinSp (List.replicate 158 sent10) :=
  pipeline_of_chunks Option.some t4 chunks_t4
    (translateChunk_id_of_wellSpaced (wellSpaced_rep 135))
    (translateChunk_id_of_wellSpaced (wellSpaced_rep 21))

theorem pipeline_t5_id :
    enhanced_translate_with_context Option.some t5 = joinSp (List.replicate 158 sent10) :=
  pipeline_of_chunks Option.some t5 chunks_t5
    (translateChunk_id_of_wellSpaced (wellSpaced_rep 135))
    (translateChunk_id_of_wellSpaced (wellSpaced_rep 21))
theorem noNl_collapseWsF : ∀ (n : Nat) (l : List Char), '\n' ∉ collapseWsF n l
  | 0, l => by simp [collapseWsF]
  | n + 1, [] => by simp [collapseWsF]
  | n + 1, c :: cs => by
    unfold collapseWsF
    by_cases hc : isPySpace c = true
    · rw [if_pos hc]
      intro hmem
      rcases List.mem_cons.1 hmem with h | h
      · exact absurd h (by decide)
      · exact noNl_collapseWsF n _ h
    · rw [if_neg hc]
      intro hmem
      rcases List.mem_cons.1 hmem with h | h
      · subst h
        exact hc (by decide)
      · exact noNl_collapseWsF n _ h

theorem cpbF_zero_of_noNl : ∀ (n : Nat) (l : List Char), '\n' ∉ l →
    countParaBreaksF n l = 0
  | 0, _, _ => rfl
  | n + 1, [], _ => rfl
  | n + 1, c :: cs, h => by
    unfold countParaBreaksF
    have hc : (c == '\n') = false := by
      have : c ≠ '\n' := fun e => h (e ▸ List.mem_cons_self c cs)
      simp [this]
    rw [hc]
    rw [Bool.false_and, if_neg (by simp)]
    exact cpbF_zero_of_noNl n cs (fun hm => h (List.mem_cons_of_mem c hm))

theorem cpb_skip_noNl : ∀ (A : List Char) (n : Nat) (B : List Char), '\n' ∉ A →
    A.length + B.length ≤ n →
    countParaBreaksF n (A ++ B) = countParaBreaksF (n - A.length) B
  | [], n, B, _, _ => by simp
  | c :: A2, n, B, h, hlen => by
    have hn : ∃ n2, n = n2 + 1 := by
      refine ⟨n - 1, ?_⟩
      have : 1 ≤ n := by simp only [List.length_cons] at hlen; omega
      omega
    obtain ⟨n2, rfl⟩ := hn
    rw [List.cons_append]
    conv_lhs => rw [countParaBreaksF]
    have hc : (c == '\n') = false := by
      have : c ≠ '\n' := fun e => h (e ▸ List.mem_cons_self c A2)
      simp [this]
    rw [hc, Bool.false_and, if_neg (by simp)]
    rw [cpb_skip_noNl A2 n2 B (fun hm => h (List.mem_cons_of_mem c hm))
      (by simp only [List.length_cons] at hlen; omega)]
    rw [show n2 + 1 - (c :: A2).length = n2 - A2.length from by
      simp only [List.length_cons]; omega]

theorem cpb_break (m : Nat) (B : List Char) (h : '\n' ∉ B) :
    countParaBreaksF (m + 1) ('\n' :: '\n' :: B) = 1 := by
  unfold countParaBreaksF
  rw [if_pos (by simp)]
  have hdw : ('\n' :: B).dropWhile (· == '\n') = B.dropWhile (· == '\n') := by
    rw [List.dropWhile_cons, if_pos (by simp)]
  have hdw2 : B.dropWhile (· == '\n') = B := by
    apply dropWhile_eq_self_of_head
    intro c hc
    have hmem : c ∈ B := by
      cases B with
      | nil => simp at hc
      | cons b bs =>
        simp only [List.head?_cons, Option.some.injEq] at hc
        subst hc
        exact List.mem_cons_self _ _
    have : c ≠ '\n' := fun e => h (e ▸ hmem)
    simp [this]
  rw [hdw, hdw2]
  rw [cpbF_zero_of_noNl m B h]
theorem len_rep136 : (joinSp (List.replicate 136 sent10)).length = 1495 := joinSp_rep_len 135

theorem len_rep158 : (joinSp (List.replicate 158 sent10)).length = 1737 := joinSp_rep_len 157

/-- C2: there is no context excision.  The second chunk of the 1539-character
input `t4` literally begins with the 197-character overlap (eighteen whole
sentences duplicated from chunk one); a successful identity translation passes
every chunk through the dispatcher verbatim, and the pipeline output is
strictly longer than the input — the leading context reappears in the
reassembled result as new content. -/
theorem context_not_excised :
    create_context_aware_chunks t4 1500 200 =
      [joinSp (List.replicate 136 sent10),
       joinSp (List.replicate 18 sent10) ++ ' ' :: joinSp (List.replicate 4 sent10)] ∧
    dispatchChunks Option.some (create_context_aware_chunks t4 1500 200) =
      create_context_aware_chunks t4 1500 200 ∧
    t4.length < (enhanced_translate_with_context Option.some t4).length := by
  have hsplit : joinSp (List.replicate 18 sent10) ++ ' ' :: joinSp (List.replicate 4 sent10) =
      joinSp (List.replicate 22 sent10) := joinSp_rep_split 17 3
  refine ⟨?_, ?_, ?_⟩
  · rw [chunks_t4, hsplit]
  · rw [chunks_t4]
    have hs1 : pyStrip (joinSp (List.replicate 136 sent10)) ≠ [] := by
      rw [show pyStrip (joinSp (List.replicate 136 sent10)) =
        joinSp (List.replicate 136 sent10) from pyStrip_eq_self_of_noEdge (noEdge_rep 135)]
      exact joinSp_rep_ne_nil 135
    have hs2 : pyStrip (joinSp (List.replicate 22 sent10)) ≠ [] := by
      rw [show pyStrip (joinSp (List.replicate 22 sent10)) =
        joinSp (List.replicate 22 sent10) from pyStrip_eq_self_of_noEdge (noEdge_rep 21)]
      exact joinSp_rep_ne_nil 21
    rw [dispatchChunks_cons _ _ _ hs1, dispatchChunks_cons _ _ _ hs2]
    rw [show dispatchChunks Option.some [] = [] from rfl]
    rw [show translateChunk Option.some (joinSp (List.replicate 136 sent10)) =
      joinSp (List.replicate 136 sent10) from
      translateChunk_id_of_wellSpaced (wellSpaced_rep 135)]
    rw [show translateChunk Option.some (joinSp (List.replicate 22 sent10)) =
      joinSp (List.replicate 22 sent10) from
      translateChunk_id_of_wellSpaced (wellSpaced_rep 21)]
  · rw [pipeline_t4_id, t4_len, len_rep158]
    omega

/-- C4: end-to-end fail-open is violated.  With a backend that errors on every
call, the pipeline on the two-chunk 1539-character input `t4` returns the
joined chunks including the duplicated 197-character overlap — a 1737-character
text — so no separator normalization can make the output equal the input. -/
theorem fail_open_not_lossless :
    normalizeSep (enhanced_translate_with_context (fun _ => none) t4) ≠ normalizeSep t4 := by
  rw [pipeline_t4_fail]
  unfold normalizeSep
  rw [show collapseWs (joinSp (List.replicate 158 sent10)) =
    joinSp (List.replicate 158 sent10) from collapseWs_id_of_wellSpaced (wellSpaced_rep 157)]
  rw [show pyStrip (joinSp (List.replicate 158 sent10)) =
    joinSp (List.replicate 158 sent10) from pyStrip_eq_self_of_noEdge (noEdge_rep 157)]
  rw [show collapseWs t4 = t4 from collapseWs_id_of_wellSpaced (wellSpaced_rep 139)]
  rw [show pyStrip t4 = t4 from pyStrip_eq_self_of_noEdge noEdge_t4]
  intro heq
  have hlen := congrArg List.length heq
  rw [len_rep158, t4_len] at hlen
  omega

/-- C5: paragraph structure is not preserved.  The input `t5` holds exactly one
paragraph break, sitting exactly at the boundary between the two produced
chunks (the second chunk is the duplicated 18-sentence overlap plus the text
after the break), yet the assembled result of an identity translation contains
zero paragraph breaks: the reassembler joins with single spaces and the final
cleanup collapses every newline. -/
theorem paragraphs_not_preserved :
    countParaBreaks t5 = 1 ∧
    create_context_aware_chunks t5 1500 200 =
      [joinSp (List.replicate 136 sent10),
       joinSp (List.replicate 18 sent10) ++ ' ' :: joinSp (List.replicate 4 sent10)] ∧
    t5 = joinSp (List.replicate 136 sent10) ++ '\n' :: '\n' ::
      joinSp (List.replicate 4 sent10) ∧
    countParaBreaks (enhanced_translate_with_context Option.some t5) = 0 := by
  refine ⟨?_, ?_, rfl, ?_⟩
  · show countParaBreaksF t5.length t5 = 1
    rw [t5_len]
    rw [show t5 = joinSp (List.replicate 136 sent10) ++
      ('\n' :: '\n' :: joinSp (List.replicate 4 sent10)) from rfl]
    rw [cpb_skip_noNl _ 1540 _ (noNl_rep 135) (by
      rw [len_rep136, List.length_cons, List.length_cons,
        show (joinSp (List.replicate 4 sent10)).length = 43 from joinSp_rep_len 3])]
    rw [len_rep136]
    rw [show (1540 : Nat) - 1495 = 44 + 1 from by omega]
    exact cpb_break 44 _ (noNl_rep 3)
  · rw [chunks_t5, joinSp_rep_split 17 3]
  · rw [pipeline_t5_id]
    show countParaBreaksF (joinSp (List.replicate 158 sent10)).length _ = 0
    exact cpbF_zero_of_noNl _ _ (noNl_rep 157)

/-- C2 (amended): the dispatcher performs no delimiter composition and no
removal — a successful identity translation of a chunk that begins with its
leading context returns the chunk verbatim, context prefix included. -/
theorem dispatcher_keeps_context_verbatim (ctx chunk : List Char)
    (h : wellSpaced (ctx ++ ' ' :: chunk) = true) :
    translateChunk Option.some (ctx ++ ' ' :: chunk) = ctx ++ ' ' :: chunk :=
  translateChunk_id_of_wellSpaced h

theorem dispatcher_keeps_context_verbatim_witness :
    translateChunk Option.some ("Aa bb.".data ++ ' ' :: "Cc dd.".data) =
      "Aa bb.".data ++ ' ' :: "Cc dd.".data :=
  dispatcher_keeps_context_verbatim "Aa bb.".data "Cc dd.".data (by decide)

/-- C5 (amended): whatever the backend does, the assembled result contains no
paragraph breaks at all — every whitespace run in the joined translation is
collapsed to a single space — except when the empty-result fallback returns
the original text verbatim. -/
theorem assembled_has_no_paragraph_breaks (tr : List Char → Option (List Char))
    (text : List Char) :
    countParaBreaks (enhanced_translate_with_context tr text) = 0 ∨
      enhanced_translate_with_context tr text = text := by
  have hsh : enhanced_translate_with_context tr text =
      (if (!(pyStrip (collapseWs (joinChunks (dispatchChunks tr
          (create_context_aware_chunks text 1500 200))))).isEmpty) = true
        then pyStrip (collapseWs (joinChunks (dispatchChunks tr
          (create_context_aware_chunks text 1500 200))))
        else text) := rfl
  rw [hsh]
  set final := pyStrip (collapseWs (joinChunks (dispatchChunks tr
    (create_context_aware_chunks text 1500 200)))) with hfin
  by_cases he : final.isEmpty
  · right
    rw [he]
    rfl
  · left
    rw [Bool.not_eq_true] at he
    rw [he]
    simp only [Bool.not_false, if_true]
    have hnl : '\n' ∉ final := by
      intro hm
      rw [hfin] at hm
      exact noNl_collapseWsF _ _ (mem_pyStrip hm)
    exact cpbF_zero_of_noNl _ _ hnl

theorem create_chunks_of_short (text : List Char) (C o : Nat) (h : text.length ≤ C) :
    create_context_aware_chunks text C o = [text] := by
  unfold create_context_aware_chunks
  rw [if_pos h]

theorem normalizeSep_nil_of_strip_nil {l : List Char} (h : pyStrip l = []) :
    normalizeSep l = [] := by
  have hall := all_ws_of_pyStrip_eq_nil h
  unfold normalizeSep
  cases l with
  | nil => rfl
  | cons c cs =>
    have hc : isPySpace c = true := hall c (List.mem_cons_self c cs)
    have hdw : cs.dropWhile isPySpace = [] :=
      List.dropWhile_eq_nil_iff.mpr (fun x hx => hall x (List.mem_cons_of_mem c hx))
    have hcw : collapseWs (c :: cs) = [' '] := by
      show collapseWsF (c :: cs).length (c :: cs) = [' ']
      rw [show (c :: cs).length = cs.length + 1 from rfl]
      unfold collapseWsF
      rw [if_pos hc, hdw, collapseWsF_nil]
    rw [hcw]
    rfl

/-- C4 (amended): for a single-chunk input — at most 1500 characters — an
always-failing backend makes the pipeline return the input modulo separator
normalization (the original text itself when even that normalization is
empty). -/
theorem fail_open_single_chunk (text : List Char) (h : text.length ≤ 1500) :
    enhanced_translate_with_context (fun _ => none) text =
      (if normalizeSep text = [] then text else normalizeSep text) := by
  have hch : create_context_aware_chunks text 1500 200 = [text] :=
    create_chunks_of_short text 1500 200 h
  show (if (!(pyStrip (collapseWs (joinChunks (dispatchChunks (fun _ => none)
      (create_context_aware_chunks text 1500 200))))).isEmpty) = true
    then pyStrip (collapseWs (joinChunks (dispatchChunks (fun _ => none)
      (create_context_aware_chunks text 1500 200))))
    else text) = _
  rw [hch]
  by_cases hstrip : pyStrip text = []
  · have hd : dispatchChunks (fun _ => none) [text] = [] := by
      show (if (pyStrip text).isEmpty = true
        then dispatchChunks (fun _ => none) []
        else translateChunk (fun _ => none) text :: dispatchChunks (fun _ => none) []) = []
      rw [hstrip]
      rfl
    rw [hd]
    rw [show joinChunks [] = [] from rfl]
    rw [show collapseWs [] = [] from rfl]
    rw [show pyStrip ([] : List Char) = [] from rfl]
    rw [if_pos (normalizeSep_nil_of_strip_nil hstrip)]
    rfl
  · rw [dispatchChunks_cons _ _ _ hstrip]
    rw [show dispatchChunks (fun _ => none) [] = [] from rfl]
    rw [translateChunk_none]
    rw [show joinChunks [text] = text from rfl]
    by_cases hfin : pyStrip (collapseWs text) = []
    · rw [hfin]
      rw [if_pos (show normalizeSep text = [] from hfin)]
      rfl
    · rw [isEmpty_false_of_ne_nil hfin]
      rw [if_neg (show ¬ normalizeSep text = [] from hfin)]
      rfl

theorem fail_open_single_chunk_witness :
    ("Hello  world.\n\nBye now.".data.length ≤ 1500) ∧
    enhanced_translate_with_context (fun _ => none) "Hello  world.\n\nBye now.".data =
      (if normalizeSep "Hello  world.\n\nBye now.".data = []
       then "Hello  world.\n\nBye now.".data
       else normalizeSep "Hello  world.\n\nBye now.".data) :=
  ⟨by decide, fail_open_single_chunk "Hello  world.\n\nBye now.".data (by decide)⟩

/-- Join of two texts by one space, skipping empty sides — the shape a
single-space join of non-empty pieces factors through. -/
def sjoin (a b : List Char) : List Char :=
  if a = [] then b else if b = [] then a else a ++ ' ' :: b

theorem sjoin_nil_left (b : List Char) : sjoin [] b = b := rfl

theorem sjoin_nil_right (a : List Char) : sjoin a [] = a := by
  unfold sjoin
  by_cases h : a = []
  · rw [if_pos h, h]
  · rw [if_neg h, if_pos rfl]

theorem sjoin_ne (a b : List Char) (ha : a ≠ []) (hb : b ≠ []) :
    sjoin a b = a ++ ' ' :: b := by
  unfold sjoin
  rw [if_neg ha, if_neg hb]

theorem sjoin_assoc (a b c : List Char) :
    sjoin (sjoin a b) c = sjoin a (sjoin b c) := by
  by_cases ha : a = []
  · subst ha
    rw [sjoin_nil_left, sjoin_nil_left]
  · by_cases hb : b = []
    · subst hb
      rw [sjoin_nil_right, sjoin_nil_left]
    · by_cases hc : c = []
      · subst hc
        rw [sjoin_nil_right, sjoin_nil_right]
      · rw [sjoin_ne a b ha hb, sjoin_ne b c hb hc]
        rw [sjoin_ne (a ++ ' ' :: b) c (by simp) hc]
        rw [sjoin_ne a (b ++ ' ' :: c) ha (by simp)]
        simp [List.append_assoc]

theorem joinSp_cons_ne_nil (c : List Char) (r : List (List Char)) (hc : c ≠ []) :
    joinSp (c :: r) ≠ [] := by
  cases r with
  | nil => exact hc
  | cons d rr => simp [joinSp]

theorem joinSp_cons_eq (s : List Char) (rest : List (List Char)) (hs : s ≠ [])
    (hr : ∀ x ∈ rest, x ≠ []) :
    joinSp (s :: rest) = sjoin s (joinSp rest) := by
  cases rest with
  | nil =>
    rw [show sjoin s (joinSp ([] : List (List Char))) = s from sjoin_nil_right s]
    rfl
  | cons d rr =>
    have hd : d ≠ [] := hr d (List.mem_cons_self d rr)
    rw [sjoin_ne s (joinSp (d :: rr)) hs (joinSp_cons_ne_nil d rr hd)]
    rfl

theorem joinSp_append_singleton : ∀ (acc : List (List Char)) (c : List Char),
    (∀ x ∈ acc, x ≠ []) → c ≠ [] →
    joinSp (acc ++ [c]) = sjoin (joinSp acc) c
  | [], c, _, _ => rfl
  | a :: as, c, hacc, hc => by
    have has : ∀ x ∈ as, x ≠ [] := fun x hx => hacc x (List.mem_cons_of_mem a hx)
    have hall : ∀ x ∈ as ++ [c], x ≠ [] := by
      intro x hx
      rcases List.mem_append.mp hx with h | h
      · exact has x h
      · rw [List.mem_singleton] at h
        subst h
        exact hc
    rw [show (a :: as) ++ [c] = a :: (as ++ [c]) from rfl]
    rw [joinSp_cons_eq a (as ++ [c]) (hacc a (List.mem_cons_self a as)) hall]
    rw [joinSp_append_singleton as c has hc]
    rw [← sjoin_assoc]
    rw [joinSp_cons_eq a as (hacc a (List.mem_cons_self a as)) has]

theorem isEmpty_false_of_ne_nil_any {α : Type} {l : List α} (h : l ≠ []) :
    l.isEmpty = false := by
  cases l with
  | nil => exact absurd rfl h
  | cons a b => rfl

theorem goOverlap_zero : ∀ (rev : List (List Char)), goOverlap 0 rev [] = []
  | [] => rfl
  | s :: rest => by simp [goOverlap]

/-- With overlap 0 the main loop is pure greedy packing: the single-space join
of its output equals the join of the pending chunk, the accumulated chunks and
the remaining sentences. -/
theorem chunkLoop_join_zero (C : Nat) (sents : List (List Char)) :
    ∀ (rev acc : List (List Char)) (cur : List Char),
    (∀ s ∈ sents, noEdgeWsB s = true ∧ s ≠ []) →
    (cur = [] ∨ (noEdgeWsB cur = true ∧ cur ≠ [])) →
    (∀ x ∈ acc, x ≠ []) →
    joinSp (chunkLoop C 0 rev acc cur sents) =
      sjoin (joinSp acc) (sjoin cur (joinSp sents)) := by
  induction sents with
  | nil =>
    intro rev acc cur _ hcur hacc
    rcases hcur with hc | ⟨hno, hne⟩
    · subst hc
      rw [show chunkLoop C 0 rev acc [] [] = acc from rfl]
      rw [show sjoin ([] : List Char) (joinSp ([] : List (List Char))) = [] from rfl]
      rw [sjoin_nil_right]
    · rw [chunkLoop_nil C 0 rev acc cur hno hne]
      rw [joinSp_append_singleton acc cur hacc hne]
      rw [show sjoin cur (joinSp ([] : List (List Char))) = cur from sjoin_nil_right cur]
  | cons s rest IH =>
    intro rev acc cur hS hcur hacc
    have hs := hS s (List.mem_cons_self s rest)
    have hrest : ∀ x ∈ rest, noEdgeWsB x = true ∧ x ≠ [] :=
      fun x hx => hS x (List.mem_cons_of_mem s hx)
    have hrestne : ∀ x ∈ rest, x ≠ [] := fun x hx => (hrest x hx).2
    rcases hcur with hc | ⟨hno, hne⟩
    · subst hc
      rw [chunkLoop_start]
      rw [IH (s :: rev) acc s hrest (Or.inr ⟨hs.1, hs.2⟩) hacc]
      rw [sjoin_nil_left]
      rw [joinSp_cons_eq s rest hs.2 hrestne]
    · by_cases hflush : C < (cur ++ ' ' :: s).length
      · rw [chunkLoop_step_flush C 0 rev acc cur s rest hno hne hflush]
        have hnc : (if !(pyStrip (goOverlap 0 rev [])).isEmpty
            then pyStrip (goOverlap 0 rev []) ++ ' ' :: s else s) = s := by
          rw [goOverlap_zero]
          rfl
        rw [hnc]
        have hacc2 : ∀ x ∈ acc ++ [cur], x ≠ [] := by
          intro x hx
          rcases List.mem_append.mp hx with h | h
          · exact hacc x h
          · rw [List.mem_singleton] at h
            subst h
            exact hne
        rw [IH (s :: rev) (acc ++ [cur]) s hrest (Or.inr ⟨hs.1, hs.2⟩) hacc2]
        rw [joinSp_append_singleton acc cur hacc hne]
        rw [joinSp_cons_eq s rest hs.2 hrestne]
        rw [sjoin_assoc]
      · rw [not_lt] at hflush
        rw [chunkLoop_step C 0 rev acc cur s rest hno hne hflush]
        rw [IH (s :: rev) acc (cur ++ ' ' :: s) hrest
          (Or.inr ⟨noEdgeWsB_append_sep hno hs.1 hne hs.2, by simp⟩) hacc]
        rw [joinSp_cons_eq s rest hs.2 hrestne]
        rw [← sjoin_assoc cur s (joinSp rest)]
        rw [sjoin_ne cur s hne hs.2]

theorem ess_ne_nil (text : List Char) : enhanced_sentence_split text ≠ [] := by
  show (if !(((sentSplit (pyStrip text)).map pyStrip).filter
        (fun s => !s.isEmpty && decide (1 < s.length))).isEmpty
      then ((sentSplit (pyStrip text)).map pyStrip).filter
        (fun s => !s.isEmpty && decide (1 < s.length))
      else [text]) ≠ []
  cases hcl : ((sentSplit (pyStrip text)).map pyStrip).filter
      (fun s => !s.isEmpty && decide (1 < s.length)) with
  | nil => simp
  | cons a b => simp

theorem chunkLoop_join_sents (C : Nat) (text : List Char)
    (H : ∀ s ∈ enhanced_sentence_split text, noEdgeWsB s = true ∧ s ≠ []) :
    joinSp (chunkLoop C 0 [] [] [] (enhanced_sentence_split text)) =
      joinSp (enhanced_sentence_split text) := by
  rw [chunkLoop_join_zero C (enhanced_sentence_split text) [] [] [] H (Or.inl rfl)
    (fun x hx => absurd hx (List.not_mem_nil x))]
  rfl

theorem chunkLoop_ne_nil_of_split (C : Nat) (text : List Char)
    (H : ∀ s ∈ enhanced_sentence_split text, noEdgeWsB s = true ∧ s ≠ []) :
    chunkLoop C 0 [] [] [] (enhanced_sentence_split text) ≠ [] := by
  intro h
  have hj := chunkLoop_join_sents C text H
  rw [h] at hj
  obtain ⟨s, rest, hsr⟩ : ∃ s rest, enhanced_sentence_split text = s :: rest := by
    cases hss : enhanced_sentence_split text with
    | nil => exact absurd hss (ess_ne_nil text)
    | cons a b => exact ⟨a, b, rfl⟩
  rw [hsr] at hj
  exact joinSp_cons_ne_nil s rest
    (H s (by rw [hsr]; exact List.mem_cons_self s rest)).2 hj.symm

/-- C1 (amended): with `overlap = 0`, for any text longer than the limit whose
sentence split yields whitespace-trimmed non-empty sentences, the single-space
join of the chunks equals the single-space join of the sentences — no content
is lost or duplicated beyond whitespace normalization. -/
theorem chunking_lossless_no_overlap (text : List Char) (limit : Nat)
    (hlim : limit < text.length)
    (H : ∀ s ∈ enhanced_sentence_split text, noEdgeWsB s = true ∧ s ≠ []) :
    joinSp (create_context_aware_chunks text limit 0) =
      joinSp (enhanced_sentence_split text) := by
  have hlong : ¬ text.length ≤ limit := not_le.mpr hlim
  have hjoin := chunkLoop_join_sents limit text H
  have hnn := chunkLoop_ne_nil_of_split limit text H
  show joinSp (if text.length ≤ limit then [text]
    else
      if (enhanced_sentence_split text).isEmpty then [text]
      else
        if !(chunkLoop limit 0 [] [] [] (enhanced_sentence_split text)).isEmpty
        then chunkLoop limit 0 [] [] [] (enhanced_sentence_split text)
        else [text]) = _
  rw [if_neg hlong]
  rw [isEmpty_false_of_ne_nil_any (ess_ne_nil text)]
  rw [isEmpty_false_of_ne_nil_any hnn]
  exact hjoin

theorem chunking_lossless_no_overlap_witness :
    (5 < t1.length ∧ ∀ s ∈ enhanced_sentence_split t1, noEdgeWsB s = true ∧ s ≠ []) ∧
    joinSp (create_context_aware_chunks t1 5 0) = joinSp (enhanced_sentence_split t1) :=
  ⟨⟨by decide, by decide⟩, chunking_lossless_no_overlap t1 5 (by decide) (by decide)⟩

/-- With overlap 0 every chunk the main loop ever finishes is within the limit
or is one of the sentences it was fed. -/
theorem chunkLoop_bound (C : Nat) (S : List (List Char)) (sents : List (List Char)) :
    ∀ (rev acc : List (List Char)) (cur : List Char),
    (∀ s ∈ sents, noEdgeWsB s = true ∧ s ≠ [] ∧ s ∈ S) →
    (cur = [] ∨ (noEdgeWsB cur = true ∧ cur ≠ [] ∧ (cur.length ≤ C ∨ cur ∈ S))) →
    (∀ c ∈ acc, c.length ≤ C ∨ c ∈ S) →
    ∀ c ∈ chunkLoop C 0 rev acc cur sents, c.length ≤ C ∨ c ∈ S := by
  induction sents with
  | nil =>
    intro rev acc cur _ hcur hacc
    rcases hcur with hc | ⟨hno, hne, hbound⟩
    · subst hc
      rw [show chunkLoop C 0 rev acc [] [] = acc from rfl]
      exact hacc
    · rw [chunkLoop_nil C 0 rev acc cur hno hne]
      intro c hc2
      rcases List.mem_append.mp hc2 with h | h
      · exact hacc c h
      · rw [List.mem_singleton] at h
        subst h
        exact hbound
  | cons s rest IH =>
    intro rev acc cur hS hcur hacc
    have hs := hS s (List.mem_cons_self s rest)
    have hrest : ∀ x ∈ rest, noEdgeWsB x = true ∧ x ≠ [] ∧ x ∈ S :=
      fun x hx => hS x (List.mem_cons_of_mem s hx)
    rcases hcur with hc | ⟨hno, hne, hbound⟩
    · subst hc
      rw [chunkLoop_start]
      exact IH (s :: rev) acc s hrest (Or.inr ⟨hs.1, hs.2.1, Or.inr hs.2.2⟩) hacc
    · by_cases hflush : C < (cur ++ ' ' :: s).length
      · rw [chunkLoop_step_flush C 0 rev acc cur s rest hno hne hflush]
        have hnc : (if !(pyStrip (goOverlap 0 rev [])).isEmpty
            then pyStrip (goOverlap 0 rev []) ++ ' ' :: s else s) = s := by
          rw [goOverlap_zero]
          rfl
        rw [hnc]
        refine IH (s :: rev) (acc ++ [cur]) s hrest (Or.inr ⟨hs.1, hs.2.1, Or.inr hs.2.2⟩) ?_
        intro c hc2
        rcases List.mem_append.mp hc2 with h | h
        · exact hacc c h
        · rw [List.mem_singleton] at h
          subst h
          exact hbound
      · rw [not_lt] at hflush
        rw [chunkLoop_step C 0 rev acc cur s rest hno hne hflush]
        exact IH (s :: rev) acc (cur ++ ' ' :: s) hrest
          (Or.inr ⟨noEdgeWsB_append_sep hno hs.1 hne hs.2.1, by simp, Or.inl hflush⟩) hacc

/-- C3 (amended): with `overlap = 0`, every chunk is within the limit or is a
whole (possibly multi-word) sentence of `enhanced_sentence_split` — the
splitter never descends below sentence granularity, so an oversized chunk is a
single sentence, not a lone atomic token. -/
theorem size_bound_sentence_exception (text : List Char) (limit : Nat)
    (H : ∀ s ∈ enhanced_sentence_split text, noEdgeWsB s = true ∧ s ≠ []) :
    ∀ c ∈ create_context_aware_chunks text limit 0,
      c.length ≤ limit ∨ c ∈ enhanced_sentence_split text := by
  by_cases hshort : text.length ≤ limit
  · rw [create_chunks_of_short text limit 0 hshort]
    intro c hc
    rw [List.mem_singleton] at hc
    subst hc
    exact Or.inl hshort
  · have hnn := chunkLoop_ne_nil_of_split limit text H
    show ∀ c ∈ (if text.length ≤ limit then [text]
      else
        if (enhanced_sentence_split text).isEmpty then [text]
        else
          if !(chunkLoop limit 0 [] [] [] (enhanced_sentence_split text)).isEmpty
          then chunkLoop limit 0 [] [] [] (enhanced_sentence_split text)
          else [text]), c.length ≤ limit ∨ c ∈ enhanced_sentence_split text
    rw [if_neg hshort]
    rw [isEmpty_false_of_ne_nil_any (ess_ne_nil text)]
    rw [isEmpty_false_of_ne_nil_any hnn]
    intro c hc
    have hc2 : c ∈ chunkLoop limit 0 [] [] [] (enhanced_sentence_split text) := hc
    exact chunkLoop_bound limit (enhanced_sentence_split text)
      (enhanced_sentence_split text) [] [] []
      (fun s hx => ⟨(H s hx).1, (H s hx).2, hx⟩) (Or.inl rfl)
      (fun x hx => absurd hx (List.not_mem_nil x)) c hc2

theorem size_bound_sentence_exception_witness :
    (∀ s ∈ enhanced_sentence_split t3, noEdgeWsB s = true ∧ s ≠ []) ∧
    ∀ c ∈ create_context_aware_chunks t3 12 0,
      c.length ≤ 12 ∨ c ∈ enhanced_sentence_split t3 :=
  ⟨by decide, size_bound_sentence_exception t3 12 (by decide)⟩

theorem pipeline_output_nonempty_witness :
    ("Hi.".data ≠ []) ∧ enhanced_translate_with_context Option.some "Hi.".data ≠ [] :=
  ⟨by decide, pipeline_output_nonempty Option.some "Hi.".data (by decide)⟩
